import Mathlib

/-!
Verification of the AEGIS-GAME/docs repository's two pure units:

* the docstring sectionizer `parseDocstring` of `src/components/python.tsx`,
  together with the name/description split used when the sections are
  displayed (`PyFunction`), and
* the page grouper of `src/app/(home)/errors/page.tsx`
  (`posts.reduce(...)` keyed by the first path segment).

Every definition below is a shallow embedding of the corresponding
TypeScript code; strings are modelled as Lean `String` (a wrapper around
`List Char`), insertion-ordered records as association lists.
-/

namespace Docs

/-- ECMAScript whitespace (the class matched by `\s` and trimmed by
`String.prototype.trim`/`trimEnd`): ASCII whitespace, NBSP, the Unicode
space separators, the line separators and the BOM. -/
def isJsWs (c : Char) : Bool :=
  c = ' ' || c = '\t' || c = '\n' || c = '\r' || c = '\x0b' || c = '\x0c' ||
  c.toNat = 0xa0 || c.toNat = 0x1680 ||
  (0x2000 ≤ c.toNat && c.toNat ≤ 0x200a) ||
  c.toNat = 0x2028 || c.toNat = 0x2029 || c.toNat = 0x202f ||
  c.toNat = 0x205f || c.toNat = 0x3000 || c.toNat = 0xfeff

/-- Model of `String.prototype.split(sep)` for a one-character separator, on the
character list: `"".split(c)` is `[""]`, a trailing separator yields a
trailing empty piece. -/
def splitOnChar (c : Char) : List Char → List (List Char)
  | [] => [[]]
  | x :: xs =>
    let r := splitOnChar c xs
    if x = c then [] :: r
    else
      match r with
      | [] => [[x]]
      | y :: ys => (x :: y) :: ys

/-- Model of `docstring.split("\n")` from `parseDocstring`. -/
def jsLines (s : String) : List String :=
  (splitOnChar '\n' s.data).map String.mk

/-- Model of `line.replace(/^\s+|\s+$/g, "")` from `parseDocstring`, which is also
the behaviour of `String.prototype.trim` used by the display split. -/
def jsTrim (s : String) : String :=
  String.mk (((s.data.dropWhile isJsWs).reverse.dropWhile isJsWs).reverse)

/-- Model of `String.prototype.trimEnd`, used for the post-processing of the
`description`, `returns` and `raises` fields. -/
def jsTrimEnd (s : String) : String :=
  String.mk ((s.data.reverse.dropWhile isJsWs).reverse)

/-- ASCII lowercasing of a string; the header regexes of `parseDocstring`
carry the `i` flag and consist of ASCII letters and a colon, so a line
matches one of them exactly when its ASCII-lowercase form equals the
pattern text. -/
def lowerStr (s : String) : String := String.mk (s.data.map Char.toLower)

/-- The record built by `parseDocstring` (`sections` in the source). -/
structure DocstringSections where
  description : String
  arguments : List String
  returns : String
  raises : String
deriving DecidableEq, Repr

/-- The initial value of `sections`. -/
def emptyDoc : DocstringSections := ⟨"", [], "", ""⟩

/-- The `currentSection` state of the scan. -/
inductive DocSection
  | description
  | arguments
  | returns
  | raises
deriving DecidableEq, Repr

/-- Test `/^(Args?):$/i.test(line)`. -/
def isArgsHeader (line : String) : Bool :=
  lowerStr line = "args:" || lowerStr line = "arg:"

/-- Test `/^Returns?:$/i.test(line)`. -/
def isReturnsHeader (line : String) : Bool :=
  lowerStr line = "returns:" || lowerStr line = "return:"

/-- Test `/^Raises?:$/i.test(line)`. -/
def isRaisesHeader (line : String) : Bool :=
  lowerStr line = "raises:" || lowerStr line = "raise:"

/-- A line recognized as any of the three section headers. -/
def isHeaderLine (line : String) : Bool :=
  isArgsHeader line || isReturnsHeader line || isRaisesHeader line

/-- One iteration of the `for (const line of lines)` loop of
`parseDocstring`: header lines switch `currentSection` and are discarded;
other lines are appended to the active section (`arguments` collects
non-empty lines individually, the text sections append `line ? line + "\n"
: "\n"`). -/
def processLine (acc : DocSection × DocstringSections) (line : String) :
    DocSection × DocstringSections :=
  if isArgsHeader line then (DocSection.arguments, acc.2)
  else if isReturnsHeader line then (DocSection.returns, acc.2)
  else if isRaisesHeader line then (DocSection.raises, acc.2)
  else
    match acc.1 with
    | DocSection.arguments =>
        (acc.1, if line ≠ "" then
          { acc.2 with arguments := acc.2.arguments ++ [line] } else acc.2)
    | DocSection.description =>
        (acc.1, { acc.2 with description :=
          acc.2.description ++ (if line ≠ "" then line ++ "\n" else "\n") })
    | DocSection.returns =>
        (acc.1, { acc.2 with returns :=
          acc.2.returns ++ (if line ≠ "" then line ++ "\n" else "\n") })
    | DocSection.raises =>
        (acc.1, { acc.2 with raises :=
          acc.2.raises ++ (if line ≠ "" then line ++ "\n" else "\n") })

/-- The whole scan loop, starting in the `description` section. -/
def scanLines (lines : List String) : DocSection × DocstringSections :=
  lines.foldl processLine (DocSection.description, emptyDoc)

/-- Model of `parseDocstring` of `src/components/python.tsx`: split on newlines,
trim every line, run the section scan, then right-trim the three text
fields. -/
def parseDocstring (docstring : String) : DocstringSections :=
  let lines := (jsLines docstring).map jsTrim
  let s := (scanLines lines).2
  { s with
    description := jsTrimEnd s.description
    returns := jsTrimEnd s.returns
    raises := jsTrimEnd s.raises }

/-- Model of the `PyFunction` guard `docString ? parseDocstring(docString) : null`:
an absent (`undefined`) or empty docstring is falsy and yields `null`
(the caller then renders the "no documentation" fallback). -/
def pyFunctionDoc (docString : Option String) : Option DocstringSections :=
  match docString with
  | none => none
  | some s => if s = "" then none else some (parseDocstring s)

/-- The display split applied by `PyFunction` to each stored argument line
and to each raises line: `const [name, description] =
arg.split(":").map((s) => s.trim())` — the first piece and, when present,
the second piece of the colon-split, each trimmed. -/
def splitNameDesc (arg : String) : String × Option String :=
  let parts := (splitOnChar ':' arg.data).map (fun cs => jsTrim (String.mk cs))
  (parts.headD "", parts[1]?)

/-- A content page as seen by the grouping logic of
`src/app/(home)/errors/page.tsx`: its path segments (`post.slugs`) plus
opaque display data, modelled by its URL. -/
structure Page where
  slugs : List String
  url : String
deriving DecidableEq, Repr

/-- Model of `const category = slug[0] || "uncategorized"`: the first path segment
when it exists and is non-empty (truthy), the fallback label otherwise. -/
def category (slugs : List String) : String :=
  match slugs with
  | [] => "uncategorized"
  | c :: _ => if c = "" then "uncategorized" else c

/-- Whether the accumulator record already has an entry for key `c`
(`!acc[category]` test). -/
def hasKey (c : String) : List (String × List Page) → Bool
  | [] => false
  | (k, _) :: rest => k = c || hasKey c rest

/-- Model of `acc[category].push(post)`: append `p` to the entry with key `c`. -/
def pushKey (c : String) (p : Page) :
    List (String × List Page) → List (String × List Page)
  | [] => []
  | (k, ps) :: rest =>
    if k = c then (k, ps ++ [p]) :: rest else (k, ps) :: pushKey c p rest

/-- One step of the `reduce`: create the category entry on first
encounter, then push the post onto it. -/
def insertPost (acc : List (String × List Page)) (p : Page) :
    List (String × List Page) :=
  let c := category p.slugs
  if hasKey c acc then pushKey c p acc else acc ++ [(c, [p])]

/-- Model of `posts.reduce(..., {})` of `ErrorsPage`, with the insertion-ordered
record modelled as an association list. -/
def groupByCategory (posts : List Page) : List (String × List Page) :=
  posts.foldl insertPost []

/-- Lookup of a category's page list in the grouping result, defaulting to
the empty list when the category is absent. -/
def findGroupD (c : String) : List (String × List Page) → List Page
  | [] => []
  | (k, ps) :: rest => if k = c then ps else findGroupD c rest

/-- Concatenation of all grouped page lists, in key order. -/
def allPages : List (String × List Page) → List Page
  | [] => []
  | (_, ps) :: rest => ps ++ allPages rest

/-- The text block accumulated by the scan for a run of lines feeding one
text section: each line followed by a newline (`line ? line + "\n" :
"\n"`, which in both cases is `line ++ "\n"`). -/
def joinLines : List String → String
  | [] => ""
  | l :: ls => l ++ "\n" ++ joinLines ls

/-- Sample page with category `alpha`, used to instantiate theorems. -/
def pgA : Page := ⟨["alpha", "e1"], "/errors/alpha/e1"⟩

/-- Sample page with category `beta`. -/
def pgB : Page := ⟨["beta", "e2"], "/errors/beta/e2"⟩

/-- A second sample page with category `alpha`. -/
def pgC : Page := ⟨["alpha", "e3"], "/errors/alpha/e3"⟩

/-- Sample page whose first path segment is the empty string. -/
def pgE : Page := ⟨[""], "/errors/e4"⟩

end Docs

namespace Docs

theorem if_line_newline (line : String) :
    (if line ≠ "" then line ++ "\n" else "\n") = line ++ "\n" := by
  by_cases h : line = ""
  · subst h
    simp
  · rw [if_pos h]

theorem isHeaderLine_false {l : String} (h : isHeaderLine l = false) :
    isArgsHeader l = false ∧ isReturnsHeader l = false ∧ isRaisesHeader l = false := by
  unfold isHeaderLine at h
  simp only [Bool.or_eq_false_iff] at h
  exact ⟨h.1.1, h.1.2, h.2⟩

theorem scan_desc (ls : List String) (s : DocstringSections)
    (hls : ∀ l ∈ ls, isHeaderLine l = false) :
    ls.foldl processLine (DocSection.description, s) =
      (DocSection.description,
        { s with description := s.description ++ joinLines ls }) := by
  induction ls generalizing s with
  | nil => simp [joinLines]
  | cons l ls ih =>
    obtain ⟨h1, h2, h3⟩ := isHeaderLine_false (hls l (List.mem_cons_self l ls))
    have hrec := ih { s with description :=
        s.description ++ (l ++ "\n") }
      (fun l' hl' => hls l' (List.mem_cons_of_mem l hl'))
    simp only [List.foldl_cons, processLine, h1, h2, h3, Bool.false_eq_true,
      if_false, if_line_newline]
    rw [hrec]
    simp [joinLines, String.append_assoc]

theorem processLine_args_header (acc : DocSection × DocstringSections) (l : String)
    (h : isArgsHeader l = true) :
    processLine acc l = (DocSection.arguments, acc.2) := by
  simp [processLine, h]

theorem processLine_returns_header (acc : DocSection × DocstringSections) (l : String)
    (h1 : isArgsHeader l = false) (h2 : isReturnsHeader l = true) :
    processLine acc l = (DocSection.returns, acc.2) := by
  simp [processLine, h1, h2]

theorem processLine_raises_header (acc : DocSection × DocstringSections) (l : String)
    (h1 : isArgsHeader l = false) (h2 : isReturnsHeader l = false)
    (h3 : isRaisesHeader l = true) :
    processLine acc l = (DocSection.raises, acc.2) := by
  simp [processLine, h1, h2, h3]

theorem isHeaderLine_cases {l : String} (h : isHeaderLine l = true) :
    isArgsHeader l = true ∨ isReturnsHeader l = true ∨ isRaisesHeader l = true := by
  unfold isHeaderLine at h
  simpa [Bool.or_eq_true, or_assoc] using h

theorem raises_not_returns {l : String} (h : isRaisesHeader l = true) :
    isReturnsHeader l = false := by
  unfold isRaisesHeader at h
  simp only [Bool.or_eq_true, decide_eq_true_eq] at h
  unfold isReturnsHeader
  rcases h with h | h <;> rw [h] <;> decide

theorem returns_not_args {l : String} (h : isReturnsHeader l = true) :
    isArgsHeader l = false := by
  unfold isReturnsHeader at h
  simp only [Bool.or_eq_true, decide_eq_true_eq] at h
  unfold isArgsHeader
  rcases h with h | h <;> rw [h] <;> decide

theorem raises_not_args {l : String} (h : isRaisesHeader l = true) :
    isArgsHeader l = false := by
  unfold isRaisesHeader at h
  simp only [Bool.or_eq_true, decide_eq_true_eq] at h
  unfold isArgsHeader
  rcases h with h | h <;> rw [h] <;> decide

theorem head?_dropWhile_not {α : Type} (p : α → Bool) (l : List α) {c : α}
    (h : (l.dropWhile p).head? = some c) : p c = false := by
  induction l with
  | nil => simp [List.dropWhile] at h
  | cons x xs ih =>
    by_cases hx : p x = true
    · rw [List.dropWhile_cons, if_pos hx] at h
      exact ih h
    · rw [List.dropWhile_cons, if_neg hx] at h
      rw [List.head?_cons, Option.some_inj] at h
      rw [← h]
      exact Bool.not_eq_true _ ▸ hx

theorem getLast?_jsTrimEnd (s : String) {c : Char}
    (h : (jsTrimEnd s).data.getLast? = some c) : isJsWs c = false := by
  unfold jsTrimEnd at h
  rw [show (String.mk ((s.data.reverse.dropWhile isJsWs).reverse)).data =
      (s.data.reverse.dropWhile isJsWs).reverse from rfl] at h
  rw [List.getLast?_reverse] at h
  exact head?_dropWhile_not _ _ h

theorem processLine_no_args (cur : DocSection) (s : DocstringSections) (l : String)
    (h1 : isArgsHeader l = false) (hcur : cur ≠ DocSection.arguments) :
    (processLine (cur, s) l).1 ≠ DocSection.arguments ∧
    (processLine (cur, s) l).2.arguments = s.arguments := by
  by_cases h2 : isReturnsHeader l = true
  · rw [processLine_returns_header _ _ h1 h2]
    exact ⟨by simp, rfl⟩
  · rw [Bool.not_eq_true] at h2
    by_cases h3 : isRaisesHeader l = true
    · rw [processLine_raises_header _ _ h1 h2 h3]
      exact ⟨by simp, rfl⟩
    · rw [Bool.not_eq_true] at h3
      cases cur with
      | arguments => exact absurd rfl hcur
      | description => refine ⟨?_, ?_⟩ <;> simp [processLine, h1, h2, h3]
      | returns => refine ⟨?_, ?_⟩ <;> simp [processLine, h1, h2, h3]
      | raises => refine ⟨?_, ?_⟩ <;> simp [processLine, h1, h2, h3]

theorem scan_no_args (ls : List String) (cur : DocSection) (s : DocstringSections)
    (hls : ∀ l ∈ ls, isArgsHeader l = false) (hcur : cur ≠ DocSection.arguments) :
    (ls.foldl processLine (cur, s)).1 ≠ DocSection.arguments ∧
    (ls.foldl processLine (cur, s)).2.arguments = s.arguments := by
  induction ls generalizing cur s with
  | nil => exact ⟨hcur, rfl⟩
  | cons l ls ih =>
    have h1 := hls l (List.mem_cons_self l ls)
    have hrest : ∀ l' ∈ ls, isArgsHeader l' = false :=
      fun l' hl' => hls l' (List.mem_cons_of_mem l hl')
    obtain ⟨ha, hb⟩ := processLine_no_args cur s l h1 hcur
    rcases hp : processLine (cur, s) l with ⟨cur', s'⟩
    rw [hp] at ha hb
    have hstep := ih cur' s' hrest ha
    simp only [List.foldl_cons, hp]
    exact ⟨hstep.1, hstep.2.trans hb⟩

theorem scan_args_collect (ls : List String) (s : DocstringSections)
    (hls : ∀ l ∈ ls, isHeaderLine l = false) :
    ls.foldl processLine (DocSection.arguments, s) =
      (DocSection.arguments,
        { s with arguments := s.arguments ++ ls.filter (fun l => l != "") }) := by
  induction ls generalizing s with
  | nil => simp
  | cons l ls ih =>
    obtain ⟨h1, h2, h3⟩ := isHeaderLine_false (hls l (List.mem_cons_self l ls))
    have hrest : ∀ l' ∈ ls, isHeaderLine l' = false :=
      fun l' hl' => hls l' (List.mem_cons_of_mem l hl')
    simp only [List.foldl_cons, processLine, h1, h2, h3, Bool.false_eq_true,
      if_false]
    by_cases he : l = ""
    · subst he
      rw [if_neg (by simp)]
      rw [ih s hrest]
      simp [List.filter_cons]
    · rw [if_pos he]
      rw [ih _ hrest]
      have hl : (l != "") = true := bne_iff_ne.mpr he
      simp [List.filter_cons, hl, List.append_assoc]

theorem parseDocstring_arguments_eq (s : String) :
    (parseDocstring s).arguments =
      (scanLines ((jsLines s).map jsTrim)).2.arguments := rfl

/-- Claim C1: parsing the docstring
`"Does X.\n\nArgs:\n    a: first\n    b: second\nReturns:\n    a value\n"`
yields description `"Does X."`, arguments `["a: first", "b: second"]`,
returns `"a value"` and raises `""`. -/
theorem claim_C1 :
    parseDocstring "Does X.\n\nArgs:\n    a: first\n    b: second\nReturns:\n    a value\n" =
      { description := "Does X."
        arguments := ["a: first", "b: second"]
        returns := "a value"
        raises := "" } := by
  decide

/-- Claim C5: an empty or absent docstring yields a null result (so the
caller renders the "no documentation" fallback), not an empty
`DocstringSections` record. -/
theorem claim_C5 :
    pyFunctionDoc none = none ∧
    pyFunctionDoc (some "") = none ∧
    pyFunctionDoc (some "") ≠ some emptyDoc := by
  decide

/-- Counterexample to claim C4 as stated: in
`"Args:\na: x\nReturns:\nArgs:\nb: y"` the (first) `Args:` header line is
followed by exactly one non-blank line (`"a: x"`) before the next header
line (`"Returns:"`), so the claim promises exactly one argument entry —
but a second `Args:` section later in the string re-opens the arguments
section and `parse` collects two entries. -/
theorem claim_C4_counterexample :
    (jsLines "Args:\na: x\nReturns:\nArgs:\nb: y").map jsTrim =
      ["Args:", "a: x", "Returns:", "Args:", "b: y"] ∧
    isArgsHeader "Args:" = true ∧
    isHeaderLine "a: x" = false ∧
    isHeaderLine "Returns:" = true ∧
    (parseDocstring "Args:\na: x\nReturns:\nArgs:\nb: y").arguments =
      ["a: x", "b: y"] ∧
    ((parseDocstring "Args:\na: x\nReturns:\nArgs:\nb: y").arguments).length ≠ 1 := by
  decide

/-- Claim C4, amended: for a string whose trimmed lines contain exactly
one `Args:`-type header line — a prefix with no `Args:`-type header, the
header, a run of non-header lines, and a remainder that is empty or
starts with a header line and contains no further `Args:`-type header —
`parse(s).arguments` is exactly the non-blank lines of that run, in order
(each already equal to the corresponding source line trimmed, since the
scan runs on trimmed lines); in particular it has exactly as many entries
as the run has non-blank lines. -/
theorem claim_C4 (s : String) (pre mid rest : List String) (h0 : String)
    (hsplit : (jsLines s).map jsTrim = pre ++ h0 :: (mid ++ rest))
    (hh : isArgsHeader h0 = true)
    (hpre : ∀ l ∈ pre, isArgsHeader l = false)
    (hmid : ∀ l ∈ mid, isHeaderLine l = false)
    (hrest1 : rest = [] ∨ ∃ r t, rest = r :: t ∧ isHeaderLine r = true)
    (hrest2 : ∀ l ∈ rest, isArgsHeader l = false) :
    (parseDocstring s).arguments = mid.filter (fun l => l != "") := by
  rw [parseDocstring_arguments_eq, scanLines, hsplit, List.foldl_append]
  rcases hp : pre.foldl processLine (DocSection.description, emptyDoc) with ⟨cur1, s1⟩
  have hpre' := scan_no_args pre DocSection.description emptyDoc hpre (by simp)
  rw [hp] at hpre'
  rw [List.foldl_cons, processLine_args_header _ _ hh]
  dsimp only
  rw [List.foldl_append, scan_args_collect mid s1 hmid, hpre'.2]
  simp only [emptyDoc, List.nil_append]
  rcases hrest1 with hnil | ⟨r0, t, heq, hr0⟩
  · subst hnil
    rfl
  · subst heq
    have hr0a : isArgsHeader r0 = false := hrest2 r0 (List.mem_cons_self _ _)
    have ht : ∀ l ∈ t, isArgsHeader l = false :=
      fun l hl => hrest2 l (List.mem_cons_of_mem _ hl)
    rcases isHeaderLine_cases hr0 with h | h | h
    · rw [h] at hr0a
      exact Bool.noConfusion hr0a
    · rw [List.foldl_cons, processLine_returns_header _ _ hr0a h]
      dsimp only
      exact (scan_no_args t DocSection.returns _ ht (by simp)).2
    · rw [List.foldl_cons, processLine_raises_header _ _ hr0a (raises_not_returns h) h]
      dsimp only
      exact (scan_no_args t DocSection.raises _ ht (by simp)).2

/-- Witness for claim C4 at the docstring
`"Args:\n a: x\n\n b: y\nReturns:\nz"`: the `Args:` section holds three
lines of which two are non-blank, and `arguments` is exactly those two
trimmed lines. -/
theorem claim_C4_witness :
    (parseDocstring "Args:\n a: x\n\n b: y\nReturns:\nz").arguments =
      (["a: x", "", "b: y"].filter (fun l => l != "")) :=
  claim_C4 "Args:\n a: x\n\n b: y\nReturns:\nz" [] ["a: x", "", "b: y"]
    ["Returns:", "z"] "Args:" (by decide) (by decide) (by decide) (by decide)
    (Or.inr ⟨"Returns:", ["z"], rfl, by decide⟩) (by decide)

/-- Counterexample to claim C2 as stated: the string `"a\n b"` contains no
line that trims to a recognized header, yet its parsed description is
`"a\nb"` — every line is trimmed individually, so the interior of the
string is not left unchanged and the result differs from the string with
only its surrounding whitespace removed (`"a\n b"`). -/
theorem claim_C2_counterexample :
    (∀ l ∈ (jsLines "a\n b").map jsTrim, isHeaderLine l = false) ∧
    (parseDocstring "a\n b").arguments = [] ∧
    (parseDocstring "a\n b").description = "a\nb" ∧
    (parseDocstring "a\n b").description ≠ jsTrim "a\n b" := by
  decide

/-- Claim C2, amended: for every string `s` none of whose lines trims to a
recognized section header, `parse(s).arguments` is empty and
`parse(s).description` equals the lines of `s`, each individually trimmed
of leading and trailing whitespace, re-joined with newlines and
right-trimmed (so the interior per-line whitespace of `s` is removed, not
left unchanged). -/
theorem claim_C2 (s : String)
    (h : ∀ l ∈ (jsLines s).map jsTrim, isHeaderLine l = false) :
    (parseDocstring s).arguments = [] ∧
    (parseDocstring s).description =
      jsTrimEnd (joinLines ((jsLines s).map jsTrim)) := by
  have hscan := scan_desc ((jsLines s).map jsTrim) emptyDoc h
  simp only [parseDocstring, scanLines, hscan]
  simp [emptyDoc]

/-- Witness for claim C2 at the concrete header-free docstring
`"hi\n\nthere "`. -/
theorem claim_C2_witness :
    (parseDocstring "hi\n\nthere ").arguments = [] ∧
    (parseDocstring "hi\n\nthere ").description =
      jsTrimEnd (joinLines ((jsLines "hi\n\nthere ").map jsTrim)) :=
  claim_C2 "hi\n\nthere " (by decide)

/-- Counterexample to claim C3 as stated: for the stored line
`"a: b: c"` the display split yields name `"a"` and description `"b"` —
the text after the second colon is dropped, so a later colon is not kept
inside the description (which the claim says would be `"b: c"`). -/
theorem claim_C3_counterexample :
    splitNameDesc "a: b: c" = ("a", some "b") ∧
    (splitNameDesc "a: b: c").2 ≠ some "b: c" := by
  decide

/-- Claim C6: header recognition is case-insensitive and anchored to the
whole trimmed line. Any line recognized as an `Args:`/`Arg:` header (in
any letter case) switches the scan to the arguments section and is itself
discarded from all output sections, and likewise for `Returns:`/`Return:`
and `Raises:`/`Raise:`; `parse("Returns:\nfoo")` and
`parse("RETURNS:\nfoo")` agree with returns value `"foo"`; mixed-case
header lines are recognized, while lines merely containing the header
text are not. -/
theorem claim_C6 :
    (∀ cur s line, isArgsHeader line = true →
      processLine (cur, s) line = (DocSection.arguments, s)) ∧
    (∀ cur s line, isReturnsHeader line = true →
      processLine (cur, s) line = (DocSection.returns, s)) ∧
    (∀ cur s line, isRaisesHeader line = true →
      processLine (cur, s) line = (DocSection.raises, s)) ∧
    parseDocstring "Returns:\nfoo" = parseDocstring "RETURNS:\nfoo" ∧
    (parseDocstring "RETURNS:\nfoo").returns = "foo" ∧
    isArgsHeader "ArGs:" = true ∧ isArgsHeader "ARG:" = true ∧
    isReturnsHeader "rEtUrN:" = true ∧ isRaisesHeader "RAISES:" = true ∧
    isHeaderLine "The Args: section" = false ∧
    isHeaderLine "Args: a" = false := by
  refine ⟨?_, ?_, ?_, by decide, by decide, by decide, by decide, by decide,
    by decide, by decide, by decide⟩
  · intro cur s line h
    exact processLine_args_header (cur, s) line h
  · intro cur s line h
    exact processLine_returns_header (cur, s) line (returns_not_args h) h
  · intro cur s line h
    exact processLine_raises_header (cur, s) line (raises_not_args h)
      (raises_not_returns h) h

/-- Witness for claim C6: the mixed-case header line `"aRgS:"` switches
the scan to the arguments section and adds nothing to the output. -/
theorem claim_C6_witness :
    processLine (DocSection.description, emptyDoc) "aRgS:" =
      (DocSection.arguments, emptyDoc) :=
  claim_C6.1 DocSection.description emptyDoc "aRgS:" (by decide)

/-- Claim C7: during the scan a blank line in the arguments section is
dropped, while a blank line in the description, returns or raises section
appends a line separator; after the scan the description, returns and
raises fields carry no trailing whitespace (they are right-trimmed). -/
theorem claim_C7 :
    (∀ s, processLine (DocSection.arguments, s) "" = (DocSection.arguments, s)) ∧
    (∀ s, processLine (DocSection.description, s) "" =
      (DocSection.description, { s with description := s.description ++ "\n" })) ∧
    (∀ s, processLine (DocSection.returns, s) "" =
      (DocSection.returns, { s with returns := s.returns ++ "\n" })) ∧
    (∀ s, processLine (DocSection.raises, s) "" =
      (DocSection.raises, { s with raises := s.raises ++ "\n" })) ∧
    (∀ d c, ((parseDocstring d).description).data.getLast? = some c →
      isJsWs c = false) ∧
    (∀ d c, ((parseDocstring d).returns).data.getLast? = some c →
      isJsWs c = false) ∧
    (∀ d c, ((parseDocstring d).raises).data.getLast? = some c →
      isJsWs c = false) := by
  have hA : isArgsHeader "" = false := by decide
  have hB : isReturnsHeader "" = false := by decide
  have hC : isRaisesHeader "" = false := by decide
  refine ⟨?_, ?_, ?_, ?_, ?_, ?_, ?_⟩
  · intro s
    simp [processLine, hA, hB, hC]
  · intro s
    simp [processLine, hA, hB, hC]
  · intro s
    simp [processLine, hA, hB, hC]
  · intro s
    simp [processLine, hA, hB, hC]
  · intro d c h
    exact getLast?_jsTrimEnd _ h
  · intro d c h
    exact getLast?_jsTrimEnd _ h
  · intro d c h
    exact getLast?_jsTrimEnd _ h

/-- Witness for claim C7: a blank line in the arguments section leaves
the state unchanged, and the parsed description of `"hi "` ends in the
non-whitespace character `i`. -/
theorem claim_C7_witness :
    processLine (DocSection.arguments, emptyDoc) "" =
      (DocSection.arguments, emptyDoc) ∧
    isJsWs 'i' = false :=
  ⟨claim_C7.1 emptyDoc, claim_C7.2.2.2.2.1 "hi " 'i' (by decide)⟩

theorem splitOnChar_ne_nil (c : Char) (l : List Char) : splitOnChar c l ≠ [] := by
  induction l with
  | nil => simp [splitOnChar]
  | cons x xs ih =>
    simp only [splitOnChar]
    by_cases h : x = c
    · simp [h]
    · simp only [if_neg h]
      cases hr : splitOnChar c xs with
      | nil => simp
      | cons y ys => simp

theorem splitOnChar_append_first (c : Char) (a b : List Char) (h : c ∉ a) :
    splitOnChar c (a ++ c :: b) = a :: splitOnChar c b := by
  induction a with
  | nil => simp [splitOnChar]
  | cons x a ih =>
    have hx : ¬ x = c := fun hxc => h (by simp [hxc])
    have ha : c ∉ a := fun hc => h (List.mem_cons_of_mem _ hc)
    simp only [List.cons_append, splitOnChar, if_neg hx, List.append_eq]
    rw [ih ha]

theorem splitOnChar_head_takeWhile (c : Char) (b : List Char) :
    (splitOnChar c b).headD [] = b.takeWhile (fun x => x != c) := by
  induction b with
  | nil => simp [splitOnChar]
  | cons x xs ih =>
    simp only [splitOnChar, List.takeWhile]
    by_cases h : x = c
    · simp [h]
    · simp only [if_neg h]
      cases hr : splitOnChar c xs with
      | nil => exact absurd hr (splitOnChar_ne_nil c xs)
      | cons y ys =>
        rw [hr] at ih
        simp only [List.headD_cons] at ih
        have hxc : (x != c) = true := bne_iff_ne.mpr h
        simp [hr, ih, hxc]

/-- Claim C3, amended: the display step splits each stored argument (and
raises) line on every colon, trims each piece, and keeps only the first
two pieces: the name is the text before the first colon and the
description is the text between the first and the second colons — text
after a second colon is discarded rather than kept in the description. -/
theorem claim_C3 (a b : List Char) (h : ':' ∉ a) :
    splitNameDesc (String.mk (a ++ ':' :: b)) =
      (jsTrim (String.mk a),
       some (jsTrim (String.mk (b.takeWhile (fun x => x != ':'))))) := by
  unfold splitNameDesc
  rw [show (String.mk (a ++ ':' :: b)).data = a ++ ':' :: b from rfl]
  rw [splitOnChar_append_first _ _ _ h]
  cases hr : splitOnChar ':' b with
  | nil => exact absurd hr (splitOnChar_ne_nil ':' b)
  | cons y ys =>
    have hy : y = b.takeWhile (fun x => x != ':') := by
      have hh := splitOnChar_head_takeWhile ':' b
      rw [hr] at hh
      simpa using hh
    simp [hy]

/-- Witness for claim C3 (amended) at the line `"a: b: c"`: name `"a"`,
description `"b"`. -/
theorem claim_C3_witness :
    splitNameDesc (String.mk ("a".data ++ ':' :: " b: c".data)) = ("a", some "b") :=
  (claim_C3 "a".data " b: c".data (by decide)).trans (by decide)

theorem findGroupD_append (c : String) (xs ys : List (String × List Page)) :
    findGroupD c (xs ++ ys) =
      if hasKey c xs then findGroupD c xs else findGroupD c ys := by
  induction xs with
  | nil => simp [findGroupD, hasKey]
  | cons e xs ih =>
    rcases e with ⟨k, ps⟩
    by_cases hk : k = c
    · simp [findGroupD, hasKey, hk]
    · simp [findGroupD, hasKey, hk, ih]

theorem hasKey_false_findGroupD {c : String} {acc : List (String × List Page)}
    (h : hasKey c acc = false) : findGroupD c acc = [] := by
  induction acc with
  | nil => rfl
  | cons e acc ih =>
    rcases e with ⟨k, ps⟩
    simp only [hasKey, Bool.or_eq_false_iff, decide_eq_false_iff_not] at h
    simp [findGroupD, h.1, ih h.2]

theorem findGroupD_pushKey_same (c : String) (p : Page)
    (acc : List (String × List Page)) (h : hasKey c acc = true) :
    findGroupD c (pushKey c p acc) = findGroupD c acc ++ [p] := by
  induction acc with
  | nil => exact Bool.noConfusion h
  | cons e acc ih =>
    rcases e with ⟨k, ps⟩
    by_cases hk : k = c
    · simp [pushKey, findGroupD, hk]
    · simp only [hasKey, Bool.or_eq_true, decide_eq_true_eq] at h
      rcases h with h | h
      · exact absurd h hk
      · simp [pushKey, findGroupD, hk, ih h]

theorem findGroupD_pushKey_ne (c c' : String) (p : Page)
    (acc : List (String × List Page)) (h : ¬ c' = c) :
    findGroupD c (pushKey c' p acc) = findGroupD c acc := by
  induction acc with
  | nil => rfl
  | cons e acc ih =>
    rcases e with ⟨k, ps⟩
    by_cases hk : k = c'
    · subst hk
      simp [pushKey, findGroupD, h, ih]
    · by_cases hkc : k = c
      · simp [pushKey, findGroupD, hk, hkc, Ne.symm h]
      · simp [pushKey, findGroupD, hk, hkc, ih]

theorem findGroupD_insertPost (acc : List (String × List Page)) (p : Page)
    (c : String) :
    findGroupD c (insertPost acc p) =
      findGroupD c acc ++ (if category p.slugs = c then [p] else []) := by
  unfold insertPost
  by_cases hc : category p.slugs = c
  · rw [hc]
    by_cases hk : hasKey c acc = true
    · rw [if_pos hk, findGroupD_pushKey_same c p acc hk, if_pos rfl]
    · rw [Bool.not_eq_true] at hk
      rw [if_neg (by rw [hk]; exact Bool.noConfusion), findGroupD_append,
        hk, if_neg Bool.noConfusion, hasKey_false_findGroupD hk, if_pos rfl]
      simp [findGroupD]
  · rw [if_neg hc, List.append_nil]
    by_cases hk : hasKey (category p.slugs) acc = true
    · rw [if_pos hk, findGroupD_pushKey_ne _ _ _ _ hc]
    · rw [Bool.not_eq_true] at hk
      rw [if_neg (by rw [hk]; exact Bool.noConfusion), findGroupD_append]
      by_cases hck : hasKey c acc = true
      · rw [if_pos hck]
      · rw [Bool.not_eq_true] at hck
        rw [if_neg (by rw [hck]; exact Bool.noConfusion),
          hasKey_false_findGroupD hck]
        simp [findGroupD, hc]

theorem foldl_insertPost_findGroupD (posts : List Page)
    (acc : List (String × List Page)) (c : String) :
    findGroupD c (posts.foldl insertPost acc) =
      findGroupD c acc ++ posts.filter (fun p => category p.slugs == c) := by
  induction posts generalizing acc with
  | nil => simp
  | cons p posts ih =>
    rw [List.foldl_cons, ih, findGroupD_insertPost, List.filter_cons]
    by_cases hc : category p.slugs = c
    · simp [hc, List.append_assoc]
    · simp [hc]

theorem allPages_append (xs ys : List (String × List Page)) :
    allPages (xs ++ ys) = allPages xs ++ allPages ys := by
  induction xs with
  | nil => rfl
  | cons e xs ih =>
    rcases e with ⟨k, ps⟩
    simp [allPages, ih]

theorem allPages_pushKey (c : String) (p : Page)
    (acc : List (String × List Page)) (h : hasKey c acc = true) :
    (allPages (pushKey c p acc)).Perm (allPages acc ++ [p]) := by
  induction acc with
  | nil => exact Bool.noConfusion h
  | cons e acc ih =>
    rcases e with ⟨k, ps⟩
    by_cases hk : k = c
    · simp only [pushKey, if_pos hk, allPages]
      rw [List.append_assoc, List.append_assoc]
      exact List.Perm.append_left ps List.perm_append_comm
    · simp only [hasKey, Bool.or_eq_true, decide_eq_true_eq] at h
      rcases h with h | h
      · exact absurd h hk
      · simp only [pushKey, if_neg hk, allPages]
        rw [List.append_assoc]
        exact List.Perm.append_left ps (ih h)

theorem allPages_insertPost (acc : List (String × List Page)) (p : Page) :
    (allPages (insertPost acc p)).Perm (allPages acc ++ [p]) := by
  unfold insertPost
  by_cases hk : hasKey (category p.slugs) acc = true
  · rw [if_pos hk]
    exact allPages_pushKey _ p acc hk
  · rw [Bool.not_eq_true] at hk
    have hk' : ¬ hasKey (category p.slugs) acc = true := by
      rw [hk]
      exact Bool.noConfusion
    rw [if_neg hk', allPages_append]
    simp only [allPages, List.append_nil]
    exact List.Perm.refl _

theorem foldl_insertPost_allPages (posts : List Page)
    (acc : List (String × List Page)) :
    (allPages (posts.foldl insertPost acc)).Perm (allPages acc ++ posts) := by
  induction posts generalizing acc with
  | nil => simp
  | cons p posts ih =>
    rw [List.foldl_cons]
    have h1 := ih (insertPost acc p)
    have h2 : (allPages (insertPost acc p) ++ posts).Perm
        ((allPages acc ++ [p]) ++ posts) :=
      (allPages_insertPost acc p).append_right posts
    have h3 : (allPages acc ++ [p]) ++ posts = allPages acc ++ (p :: posts) := by
      rw [List.append_assoc]
      rfl
    exact h1.trans (h3 ▸ h2)

/-- Claim C8: `groupByCategory` is a stable partition of its input: the
pages grouped under each category are exactly the input pages with that
category, in their original relative order, and the concatenation of all
groups is a permutation of the input (no page is dropped, duplicated, or
altered). -/
theorem claim_C8 (P : List Page) :
    (∀ c, findGroupD c (groupByCategory P) =
      P.filter (fun p => category p.slugs == c)) ∧
    (allPages (groupByCategory P)).Perm P := by
  constructor
  · intro c
    rw [groupByCategory, foldl_insertPost_findGroupD]
    rfl
  · have := foldl_insertPost_allPages P []
    simpa [allPages] using this

/-- Witness for claim C8 on the concrete page list `[pgA, pgB, pgC]`
(categories `alpha`, `beta`, `alpha`): the `alpha` group is `[pgA, pgC]`
in input order, and the groups together are a permutation of the input. -/
theorem claim_C8_witness :
    findGroupD "alpha" (groupByCategory [pgA, pgB, pgC]) = [pgA, pgC] ∧
    (allPages (groupByCategory [pgA, pgB, pgC])).Perm [pgA, pgB, pgC] :=
  ⟨((claim_C8 [pgA, pgB, pgC]).1 "alpha").trans (by decide),
    (claim_C8 [pgA, pgB, pgC]).2⟩

/-- Counterexample to claim C9 as stated: a page whose path-segment list
is the non-empty list `[""]` has first segment `""`, yet its key in the
grouping result is `"uncategorized"`, not its first segment. -/
theorem claim_C9_counterexample :
    groupByCategory [pgE] = [("uncategorized", [pgE])] ∧
    pgE.slugs ≠ [] ∧
    category pgE.slugs ≠ pgE.slugs.headD "x" := by
  decide

/-- Claim C9, amended: a page's category key in the grouping result is
the first segment of its path-segment list whenever that segment is
non-empty; a page whose path-segment list is empty (or whose first
segment is the empty string, per the falsy test) is placed under
`"uncategorized"`; the empty input sequence yields an empty mapping. -/
theorem claim_C9 :
    (∀ c rest, c ≠ "" → category (c :: rest) = c) ∧
    category [] = "uncategorized" ∧
    (∀ (P : List Page) (p : Page), p ∈ P →
      p ∈ findGroupD (category p.slugs) (groupByCategory P)) ∧
    groupByCategory [] = [] := by
  refine ⟨?_, rfl, ?_, rfl⟩
  · intro c rest hc
    simp [category, hc]
  · intro P p hp
    rw [groupByCategory, foldl_insertPost_findGroupD]
    rw [show findGroupD (category p.slugs) [] = [] from rfl, List.nil_append]
    exact List.mem_filter.mpr ⟨hp, by simp⟩

/-- Witness for claim C9 (amended): the page `pgB` with first segment
`"beta"` is grouped under key `"beta"`. -/
theorem claim_C9_witness :
    category ["beta", "e2"] = "beta" ∧
    pgB ∈ findGroupD (category pgB.slugs) (groupByCategory [pgA, pgB]) :=
  ⟨claim_C9.1 "beta" ["e2"] (by decide),
    claim_C9.2.2.1 [pgA, pgB] pgB (by decide)⟩

/-- Claim C10: a page whose path-segment list is non-empty but whose
first segment is the empty string is also assigned the `"uncategorized"`
category (the fallback is taken for any falsy first segment), and in the
grouping result such a page lands in the `"uncategorized"` group. -/
theorem claim_C10 :
    (∀ rest, category ("" :: rest) = "uncategorized") ∧
    (∀ (P : List Page) (p : Page) (rest : List String), p ∈ P →
      p.slugs = "" :: rest →
      p ∈ findGroupD "uncategorized" (groupByCategory P)) := by
  constructor
  · intro rest
    simp [category]
  · intro P p rest hp hslugs
    rw [groupByCategory, foldl_insertPost_findGroupD]
    rw [show findGroupD "uncategorized" [] = [] from rfl, List.nil_append]
    refine List.mem_filter.mpr ⟨hp, ?_⟩
    rw [hslugs]
    simp [category]

/-- Witness for claim C10: the page `pgE`, whose path segments are
`[""]`, lands in the `"uncategorized"` group. -/
theorem claim_C10_witness :
    pgE ∈ findGroupD "uncategorized" (groupByCategory [pgA, pgE]) :=
  claim_C10.2 [pgA, pgE] pgE [] (by decide) rfl

end Docs
